import Mathlib

/-!
Verification of the PaddleNLP tokenization pipeline claims.

The definitions below are shallow embeddings of
`paddlenlp/transformers/electra/tokenizer.py` (the Electra tokenizer's
special-token assembler and string reconstruction) and, where the
repository ships only tests or spec text for a component (the GPT BPE
matcher and the batch-encoder padding), models written from the
specification, marked as such in their doc comments.

Token id lists are `List Nat`, offset mappings are `List (Nat × Nat)`,
and fallible methods return `Except String`.
-/

/-- Embeds `ElectraTokenizer.build_inputs_with_special_tokens`
(tokenizer.py lines 229-252): `[CLS] A [SEP]` for a single sequence,
`[CLS] A [SEP] B [SEP]` for a pair.  `cls` and `sep` stand for
`self.cls_token_id` and `self.sep_token_id`. -/
def build_inputs_with_special_tokens (cls sep : Nat) (token_ids_0 : List Nat)
    (token_ids_1 : Option (List Nat)) : List Nat :=
  match token_ids_1 with
  | none => [cls] ++ token_ids_0 ++ [sep]
  | some t1 => [cls] ++ token_ids_0 ++ [sep] ++ t1 ++ [sep]

/-- Embeds `ElectraTokenizer.build_offset_mapping_with_special_tokens`
(tokenizer.py lines 254-278): wraps the offset lists with `(0,0)` at each
template position. -/
def build_offset_mapping_with_special_tokens (offset_mapping_0 : List (Nat × Nat))
    (offset_mapping_1 : Option (List (Nat × Nat))) : List (Nat × Nat) :=
  match offset_mapping_1 with
  | none => [(0, 0)] ++ offset_mapping_0 ++ [(0, 0)]
  | some om1 => [(0, 0)] ++ offset_mapping_0 ++ [(0, 0)] ++ om1 ++ [(0, 0)]

/-- Embeds `ElectraTokenizer.create_token_type_ids_from_sequences`
(tokenizer.py lines 280-307): `len([cls] + A + [sep]) * [0]` and, for a
pair, `+ len(B + [sep]) * [1]`. -/
def create_token_type_ids_from_sequences (cls sep : Nat) (token_ids_0 : List Nat)
    (token_ids_1 : Option (List Nat)) : List Nat :=
  match token_ids_1 with
  | none => List.replicate ([cls] ++ token_ids_0 ++ [sep]).length 0
  | some t1 =>
      List.replicate ([cls] ++ token_ids_0 ++ [sep]).length 0 ++
        List.replicate (t1 ++ [sep]).length 1

/-- Embeds `ElectraTokenizer.get_special_tokens_mask`
(tokenizer.py lines 309-342).  With `already_has_special_tokens` it
rejects a second sequence and otherwise marks ids equal to `sep` or `cls`;
without it, it emits the template mask `[1] + [0]*len(A) + [1]`
(`+ [0]*len(B) + [1]` for a pair). -/
def get_special_tokens_mask (cls sep : Nat) (token_ids_0 : List Nat)
    (token_ids_1 : Option (List Nat)) (already_has_special_tokens : Bool) :
    Except String (List Nat) :=
  if already_has_special_tokens then
    match token_ids_1 with
    | some _ =>
        Except.error
          "You should not supply a second sequence if the provided sequence of ids is already formatted with special tokens for the model."
    | none =>
        Except.ok (token_ids_0.map (fun x => if x = sep ∨ x = cls then 1 else 0))
  else
    match token_ids_1 with
    | some t1 =>
        Except.ok ([1] ++ List.replicate token_ids_0.length 0 ++ [1] ++
          List.replicate t1.length 0 ++ [1])
    | none => Except.ok ([1] ++ List.replicate token_ids_0.length 0 ++ [1])

/-- Models the filesystem the tokenizer constructor consults:
`isfile` stands for `os.path.isfile` and `lines` for the contents
`load_vocabulary` would read. -/
structure FS where
  isfile : String → Bool
  lines : String → List String

/-- The constructed tokenizer state: the fields `ElectraTokenizer.__init__`
assigns (tokenizer.py lines 139-150). -/
structure ElectraTokenizerState where
  do_lower_case : Bool
  vocab : List String
  do_basic_tokenize : Bool

/-- Embeds `ElectraTokenizer.__init__` (tokenizer.py lines 120-150): the
constructor first checks `os.path.isfile(vocab_file)` and raises a
`ValueError` when the check fails, before `load_vocabulary` (inherited
from `PretrainedTokenizer`, outside these sources, modelled as reading
`fs.lines`) or the sub-tokenizers are touched. -/
def ElectraTokenizer.init (fs : FS) (vocab_file : String) (do_lower_case : Bool)
    (do_basic_tokenize : Bool) : Except String ElectraTokenizerState :=
  if fs.isfile vocab_file then
    Except.ok
      { do_lower_case := do_lower_case
        vocab := fs.lines vocab_file
        do_basic_tokenize := do_basic_tokenize }
  else
    Except.error
      ("Can't find a vocabulary file at path '" ++ vocab_file ++
        "'. To load the vocabulary from a pretrained model please use `tokenizer = ElectraTokenizer.from_pretrained(PRETRAINED_MODEL_NAME)`")

/-! ### Whitespace splitting, shared by the basic segmenter and the GPT
pre-tokenizer -/

/-- Accumulator worker for `wsSplit`: `acc` holds the current word,
reversed; a whitespace character (or the end of input) flushes it. -/
def wsSplitAux : List Char → List Char → List (List Char)
  | [], acc => if acc.isEmpty then [] else [acc.reverse]
  | c :: cs, acc =>
      if c.isWhitespace then
        if acc.isEmpty then wsSplitAux cs []
        else acc.reverse :: wsSplitAux cs []
      else wsSplitAux cs (c :: acc)

/-- Modelled from the spec: step (1)/(3) of the Basic Segmenter contract
(spec 4.2) — whitespace-split the text, dropping the empty pieces that
whitespace collapse would produce. -/
def wsSplit (s : List Char) : List (List Char) :=
  wsSplitAux s []

/-- Joins token strings with single spaces (the `" ".join(tokens)` of
`convert_tokens_to_string`, tokenizer.py line 208). -/
def joinSp : List (List Char) → List Char
  | [] => []
  | t :: ts => t ++ (ts.map (fun u => ' ' :: u)).flatten

/-- Modelled from the spec: "whitespace normalization" of the round-trip
property (spec 8) — collapse runs of whitespace to single spaces and trim
the ends. -/
def normalizeWS (s : List Char) : List Char :=
  joinSp (wsSplit s)

/-! ### GPT byte-pair-encoding matcher (spec 4.4), modelled from the spec:
the `GPTTokenizer` itself is not among the repository sources here, only
its tests. -/

/-- Modelled from the spec: merge-rule table rank lookup (spec 3,
"Merge-rule table"): the rank of a symbol pair is its position in the
ordered rule list. -/
def rankOf (ranks : List (List Char × List Char)) (p : List Char × List Char) :
    Option Nat :=
  ranks.findIdx? (fun r => r.1 == p.1 && r.2 == p.2)

/-- Adjacent symbol pairs of the current symbol sequence. -/
def adjacentPairs (syms : List (List Char)) : List (List Char × List Char) :=
  syms.zip syms.tail

/-- Modelled from the spec: "find the adjacent symbol pair with the lowest
merge rank among all pairs present in the current sequence; if no pair has
a known rank, stop" (spec 4.4). -/
def bestPair (ranks : List (List Char × List Char)) (syms : List (List Char)) :
    Option (List Char × List Char) :=
  ((adjacentPairs syms).foldl
    (fun acc p =>
      match rankOf ranks p with
      | none => acc
      | some r =>
          match acc with
          | none => some (p, r)
          | some (q, s) => if r < s then some (p, r) else some (q, s))
    none).map Prod.fst

/-- Modelled from the spec: "merge all non-overlapping occurrences of that
specific pair into one symbol, left to right" (spec 4.4). -/
def mergePair (a b : List Char) : List (List Char) → List (List Char)
  | [] => []
  | [x] => [x]
  | x :: y :: rest =>
      if x == a && y == b then (a ++ b) :: mergePair a b rest
      else x :: mergePair a b (y :: rest)

/-- Modelled from the spec: the BPE merge loop (spec 4.4), fuelled; each
iteration strictly reduces the symbol count, so `w.length` fuel always
suffices. -/
def bpeLoop (ranks : List (List Char × List Char)) :
    Nat → List (List Char) → List (List Char)
  | 0, syms => syms
  | f + 1, syms =>
      match bestPair ranks syms with
      | none => syms
      | some (a, b) => bpeLoop ranks f (mergePair a b syms)

/-- Modelled from the spec: BPE tokenization of one coarse token — start
from individual characters and merge until no ranked pair remains
(spec 4.4). -/
def bpe (ranks : List (List Char × List Char)) (w : List Char) :
    List (List Char) :=
  bpeLoop ranks w.length (w.map (fun c => [c]))

/-- Modelled from the spec: GPT byte-level pre-tokenization with the
leading-space marker enabled (`add_prefix_space`): each whitespace-split
word is prefixed with the boundary marker `Ġ` (spec 4.4, "a word-boundary
marker prepended per configuration"). -/
def gpt_pretokenize (text : List Char) : List (List Char) :=
  (wsSplit text).map (fun w => 'Ġ' :: w)

/-- Modelled from the spec: full GPT tokenization — pre-tokenize, then BPE
each coarse token and concatenate. -/
def gpt_tokenize (ranks : List (List Char × List Char)) (text : List Char) :
    List (List Char) :=
  ((gpt_pretokenize text).map (bpe ranks)).flatten

/-- Modelled from the spec: Vocabulary lookup, unknown-token id on miss
(spec 4.1); ids equal list position. -/
def convert_tokens_to_ids (vocab : List (List Char)) (unkId : Nat)
    (t : List Char) : Nat :=
  match vocab.findIdx? (fun v => v == t) with
  | some i => i
  | none => unkId

/-- The fixture vocabulary of `GPTTokenizationTest.setUp`
(test_tokenizer.py lines 42-68), ids equal to list position. -/
def gptFixtureVocab : List (List Char) :=
  [['l'], ['o'], ['w'], ['e'], ['r'], ['s'], ['t'], ['i'], ['d'], ['n'],
   ['Ġ'], ['Ġ', 'l'], ['Ġ', 'n'], ['Ġ', 'l', 'o'], ['Ġ', 'l', 'o', 'w'],
   ['e', 'r'], ['Ġ', 'l', 'o', 'w', 'e', 's', 't'],
   ['Ġ', 'n', 'e', 'w', 'e', 'r'], ['Ġ', 'w', 'i', 'd', 'e', 'r'],
   ['<', 'u', 'n', 'k', '>'],
   ['<', '|', 'e', 'n', 'd', 'o', 'f', 't', 'e', 'x', 't', '|', '>']]

/-- The fixture merge rules of `GPTTokenizationTest.setUp`, in rank
order. -/
def gptFixtureMerges : List (List Char × List Char) :=
  [(['Ġ'], ['l']), (['Ġ', 'l'], ['o']), (['Ġ', 'l', 'o'], ['w']),
   (['e'], ['r'])]

/-! ### Batch-encoder padding (spec 4.7), modelled from the spec: the
batch encoder lives in the tokenizer base classes, outside these
sources; only its GPT test is in the repository. -/

/-- Modelled from the spec: "Padding appends the `pad` special token id,
with `attention_mask` 0 ... at each padded position" (spec 4.7).  Returns
`(input_ids, attention_mask)` for one example padded to `len`. -/
def padToLength (padId len : Nat) (ids : List Nat) : List Nat × List Nat :=
  (ids ++ List.replicate (len - ids.length) padId,
   List.replicate ids.length 1 ++ List.replicate (len - ids.length) 0)

/-- The batch's own maximum example length (`longest` policy target). -/
def batchMaxLen (batch : List (List Nat)) : Nat :=
  batch.foldr (fun ids m => max ids.length m) 0

/-- Modelled from the spec: `longest` policy — "pad every example in the
batch to the batch's own maximum length" (spec 4.7). -/
def padLongest (padId : Nat) (batch : List (List Nat)) :
    List (List Nat × List Nat) :=
  batch.map (padToLength padId (batchMaxLen batch))

/-! ### Electra basic segmentation and WordPiece matching.  The
`BasicTokenizer` and `WordpieceTokenizer` classes live in the tokenizer
base module, outside these sources; they are modelled from the spec
(4.2, 4.3).  `convert_tokens_to_string` is embedded from
tokenizer.py lines 187-209. -/

/-- The ASCII-symbol clause of spec 4.2's punctuation definition ("any
non-alphanumeric ASCII symbol or Unicode punctuation category member"):
the four ASCII symbol ranges.  The segmenter takes the full classifier as
a parameter; spec 4.2 guarantees the real classifier contains these
ranges, and that containment is the only fact the round-trip proof uses
about it. -/
def isPunc (c : Char) : Bool :=
  (33 ≤ c.toNat && c.toNat ≤ 47) || (58 ≤ c.toNat && c.toNat ≤ 64) ||
    (91 ≤ c.toNat && c.toNat ≤ 96) || (123 ≤ c.toNat && c.toNat ≤ 126)

/-- Modelled from the spec: the "designated CJK Unicode ranges" of
spec 4.2, step 2 — the CJK ideograph blocks whose characters the
segmenter isolates. -/
def isCJKChar (c : Char) : Bool :=
  (0x4E00 ≤ c.toNat && c.toNat ≤ 0x9FFF) ||
    (0x3400 ≤ c.toNat && c.toNat ≤ 0x4DBF) ||
    (0x20000 ≤ c.toNat && c.toNat ≤ 0x2A6DF) ||
    (0x2A700 ≤ c.toNat && c.toNat ≤ 0x2B73F) ||
    (0x2B740 ≤ c.toNat && c.toNat ≤ 0x2B81F) ||
    (0x2B820 ≤ c.toNat && c.toNat ≤ 0x2CEAF) ||
    (0xF900 ≤ c.toNat && c.toNat ≤ 0xFAFF) ||
    (0x2F800 ≤ c.toNat && c.toNat ≤ 0x2FA1F)

/-- Modelled from the spec: CJK isolation (spec 4.2, step 2) — "insert
spaces around every character in designated CJK Unicode ranges", for a
given CJK classifier. -/
def cjkPad (isCJKp : Char → Bool) : List Char → List Char
  | [] => []
  | c :: cs => (if isCJKp c then [' ', c, ' '] else [c]) ++ cjkPad isCJKp cs

/-- Modelled from the spec: "split off leading/trailing/isolated
punctuation characters as their own tokens" (spec 4.2, step 4), for a
given punctuation classifier `isPuncP`. -/
def splitOnPunc (isPuncP : Char → Bool) : List Char → List (List Char)
  | [] => []
  | [c] => [[c]]
  | c :: d :: cs =>
      if isPuncP c then [c] :: splitOnPunc isPuncP (d :: cs)
      else if isPuncP d then [c] :: splitOnPunc isPuncP (d :: cs)
      else
        match splitOnPunc isPuncP (d :: cs) with
        | [] => [[c]]
        | g :: gs => (c :: g) :: gs

/-- Modelled from the spec: the Basic Segmenter (spec 4.2) — isolate CJK
characters (step 2), whitespace-split (step 3), then per piece lowercase,
strip accents and punctuation-split (step 4; the never-split set, empty
for plain text, is omitted).  The CJK classifier, the punctuation
classifier and the NFD-based accent stripper are parameters: the
round-trip theorem quantifies over all of them, so it covers the real
Unicode classifiers; `isCJKChar` and `isPunc` are concrete
instantiations used at concrete inputs. -/
def basic_tokenize (isCJKp isPuncP : Char → Bool)
    (stripAccents : List Char → List Char) (lower : Bool)
    (text : List Char) : List (List Char) :=
  ((wsSplit (cjkPad isCJKp text)).map
    (fun w => splitOnPunc isPuncP
      (if lower then stripAccents (w.map Char.toLower) else w))).flatten

/-- The WordPiece continuation marker: pieces after position 0 are
prefixed with `##` before vocabulary lookup (spec 4.3). -/
def wpMark (b : Bool) (p : List Char) : List Char :=
  if b then p else '#' :: '#' :: p

/-- Modelled from the spec: find the longest prefix (length `n` down to
1) of `rest` whose marked form is in the vocabulary (spec 4.3). -/
def wpTry (vocab : List (List Char)) (b : Bool) (rest : List Char) :
    Nat → Option Nat
  | 0 => none
  | n + 1 =>
      if vocab.contains (wpMark b (rest.take (n + 1))) then some (n + 1)
      else wpTry vocab b rest n

/-- Modelled from the spec: the greedy longest-match-first WordPiece loop
(spec 4.3); `none` signals that some position had no match, in which case
the whole coarse token becomes the unknown token. -/
def wpGo (vocab : List (List Char)) : Nat → Bool → List Char →
    Option (List (List Char))
  | _, _, [] => some []
  | 0, _, _ :: _ => none
  | f + 1, b, c :: cs =>
      match wpTry vocab b (c :: cs) (c :: cs).length with
      | none => none
      | some n =>
          (wpGo vocab f false ((c :: cs).drop n)).map
            (fun ts => wpMark b ((c :: cs).take n) :: ts)

/-- Modelled from the spec: WordPiece tokenization of one coarse token
(spec 4.3), with the over-long-token unknown substitution. -/
def wordpiece_tokenize (vocab : List (List Char)) (unk : List Char)
    (maxChars : Nat) (w : List Char) : List (List Char) :=
  if maxChars < w.length then [unk]
  else
    match wpGo vocab w.length true w with
    | some ts => ts
    | none => [unk]

/-- Embeds `ElectraTokenizer._tokenize` (tokenizer.py lines 165-185) with
`do_basic_tokenize` true: basic-tokenize, then WordPiece each coarse
token (the never-split special tokens do not occur in plain text and are
omitted). -/
def electra_tokenize (isCJKp isPuncP : Char → Bool)
    (stripAccents : List Char → List Char) (vocab : List (List Char))
    (unk : List Char) (maxChars : Nat) (lower : Bool) (text : List Char) :
    List (List Char) :=
  ((basic_tokenize isCJKp isPuncP stripAccents lower text).map
    (wordpiece_tokenize vocab unk maxChars)).flatten

/-- The `.replace(" ##", "")` of `convert_tokens_to_string`
(tokenizer.py line 208): remove each left-to-right non-overlapping
occurrence of the three characters space, `#`, `#`. -/
def removeSpHH : List Char → List Char
  | [] => []
  | [c] => [c]
  | [c, d] => [c, d]
  | c :: d :: e :: cs =>
      if c = ' ' ∧ d = '#' ∧ e = '#' then removeSpHH cs
      else c :: removeSpHH (d :: e :: cs)

/-- The `.strip()` of `convert_tokens_to_string`: drop surrounding
whitespace. -/
def stripWS (s : List Char) : List Char :=
  ((s.dropWhile Char.isWhitespace).reverse.dropWhile Char.isWhitespace).reverse

/-- Embeds `ElectraTokenizer.convert_tokens_to_string`
(tokenizer.py lines 187-209): `" ".join(tokens).replace(" ##", "").strip()`. -/
def convert_tokens_to_string (tokens : List (List Char)) : List Char :=
  stripWS (removeSpHH (joinSp tokens))

/-- Strips the continuation marker a piece carries at a non-initial
position. -/
def stripMark (b : Bool) (t : List Char) : List Char :=
  if b then t else t.drop 2

/-- Reassembles a WordPiece piece list into the coarse token it came
from: the first piece is kept (initial position when `b` is true), later
pieces drop their `##` marker. -/
def joinWP : Bool → List (List Char) → List Char
  | _, [] => []
  | b, t :: ts => stripMark b t ++ joinWP false ts

/-- All characters of a piece are neither punctuation nor whitespace. -/
def pieceCharsOK (t : List Char) : Prop :=
  ∀ c ∈ t, isPunc c = false ∧ c.isWhitespace = false

/-- A well-formed continuation piece: `##` followed by a nonempty clean
body. -/
def contOK (t : List Char) : Prop :=
  ∃ p, t = '#' :: '#' :: p ∧ p ≠ [] ∧ pieceCharsOK p

/-- A well-formed WordPiece output for one word: a nonempty clean head
piece followed by well-formed continuation pieces. -/
def goodWord (ts : List (List Char)) : Prop :=
  ∃ t0 ts', ts = t0 :: ts' ∧ t0 ≠ [] ∧ pieceCharsOK t0 ∧ ∀ t ∈ ts', contOK t

/-! ### Helper lemmas about `List.getD` -/

theorem getD_replicate_of_lt {α : Type} (x d : α) :
    ∀ (n i : Nat), i < n → (List.replicate n x).getD i d = x := by
  intro n
  induction n with
  | zero => intro i h; omega
  | succ m ih =>
      intro i h
      cases i with
      | zero => rfl
      | succ j => exact ih j (by omega)

theorem getD_append_of_lt {α : Type} (d : α) :
    ∀ (l l' : List α) (i : Nat), i < l.length → (l ++ l').getD i d = l.getD i d := by
  intro l
  induction l with
  | nil => intro l' i h; simp at h
  | cons a t ih =>
      intro l' i h
      cases i with
      | zero => rfl
      | succ j => exact ih l' j (by simpa using h)

theorem getD_append_of_ge {α : Type} (d : α) :
    ∀ (l l' : List α) (i : Nat), l.length ≤ i →
      (l ++ l').getD i d = l'.getD (i - l.length) d := by
  intro l
  induction l with
  | nil => intro l' i _; simp
  | cons a t ih =>
      intro l' i h
      cases i with
      | zero => simp at h
      | succ j =>
          have := ih l' j (by simpa using h)
          simpa [Nat.succ_sub_one] using this

/-- Claim C1: `build_inputs_with_special_tokens(A)` is `[cls] ++ A ++ [sep]`,
`build_inputs_with_special_tokens(A, B)` is
`[cls] ++ A ++ [sep] ++ B ++ [sep]`, and the single-sequence result starts
with the cls id and ends with the sep id. -/
theorem claim_C1 (cls sep : Nat) (A B : List Nat) :
    build_inputs_with_special_tokens cls sep A none = [cls] ++ A ++ [sep] ∧
    build_inputs_with_special_tokens cls sep A (some B) =
      [cls] ++ A ++ [sep] ++ B ++ [sep] ∧
    (build_inputs_with_special_tokens cls sep A none).head? = some cls ∧
    (build_inputs_with_special_tokens cls sep A none).getLast? = some sep := by
  refine ⟨rfl, rfl, rfl, ?_⟩
  have h : build_inputs_with_special_tokens cls sep A none = (cls :: A) ++ [sep] := by
    simp [build_inputs_with_special_tokens]
  rw [h, List.getLast?_concat]

/-- The assembled pair sequence `cls :: A ++ sep :: tail` has its first
occurrence of `sep` at index `A.length + 1` when `sep` appears neither as
`cls` nor inside `A`. -/
theorem findIdx_sep_assembled (cls sep : Nat) (A tail : List Nat)
    (hA : sep ∉ A) (hc : cls ≠ sep) :
    ((cls :: (A ++ sep :: tail)).findIdx (fun x => x == sep)) = A.length + 1 := by
  have hstep : ∀ (l : List Nat), sep ∉ l →
      ((l ++ sep :: tail).findIdx (fun x => x == sep)) = l.length := by
    intro l
    induction l with
    | nil => intro _; simp [List.findIdx_cons]
    | cons a t ih =>
        intro hmem
        have ha : a ≠ sep := fun h => hmem (h ▸ List.mem_cons_self a t)
        have ht : sep ∉ t := fun h => hmem (List.mem_cons_of_mem a h)
        have hab : (a == sep) = false := by simpa using ha
        simp [List.findIdx_cons, hab, ih ht]
  have hcb : (cls == sep) = false := by simpa using hc
  simp [List.findIdx_cons, hcb, hstep A hA]

/-- Claim C2: `create_token_type_ids_from_sequences(A)` is `len(A)+2`
zeros; for a pair it is `len(A)+2` zeros followed by `len(B)+1` ones,
which (when `sep` does not occur as `cls` or in `A`) is 0 at every
position up to and including the first `[SEP]` of the assembled sequence
and 1 at every position after it. -/
theorem claim_C2 (cls sep : Nat) (A B : List Nat) :
    create_token_type_ids_from_sequences cls sep A none =
      List.replicate (A.length + 2) 0 ∧
    create_token_type_ids_from_sequences cls sep A (some B) =
      List.replicate (A.length + 2) 0 ++ List.replicate (B.length + 1) 1 ∧
    (sep ∉ A → cls ≠ sep →
      ((build_inputs_with_special_tokens cls sep A (some B)).findIdx
          (fun x => x == sep) = A.length + 1 ∧
        (List.range (create_token_type_ids_from_sequences cls sep A (some B)).length).all
          (fun i =>
            ((create_token_type_ids_from_sequences cls sep A (some B)).getD i 0 == 0) ==
              decide (i ≤ A.length + 1)))) := by
  have hlen : ([cls] ++ A ++ [sep]).length = A.length + 2 := by
    simp
  have hlen1 : (B ++ [sep]).length = B.length + 1 := by simp
  have h0 : create_token_type_ids_from_sequences cls sep A none =
      List.replicate (A.length + 2) 0 := by
    show List.replicate ([cls] ++ A ++ [sep]).length 0 = _
    rw [hlen]
  have h1 : create_token_type_ids_from_sequences cls sep A (some B) =
      List.replicate (A.length + 2) 0 ++ List.replicate (B.length + 1) 1 := by
    show List.replicate ([cls] ++ A ++ [sep]).length 0 ++
        List.replicate (B ++ [sep]).length 1 = _
    rw [hlen, hlen1]
  refine ⟨h0, h1, ?_⟩
  intro hA hc
  have hshape : build_inputs_with_special_tokens cls sep A (some B) =
      cls :: (A ++ sep :: (B ++ [sep])) := by
    simp [build_inputs_with_special_tokens]
  constructor
  · rw [hshape]
    exact findIdx_sep_assembled cls sep A (B ++ [sep]) hA hc
  · rw [List.all_eq_true]
    intro i hi
    rw [List.mem_range] at hi
    rw [h1] at hi ⊢
    simp only [List.length_append, List.length_replicate] at hi
    by_cases hle : i ≤ A.length + 1
    · have hlt : i < (List.replicate (A.length + 2) 0).length := by
        simp; omega
      rw [getD_append_of_lt _ _ _ _ hlt,
        getD_replicate_of_lt _ _ _ _ (by omega)]
      simp [hle]
    · have hge : (List.replicate (A.length + 2) (0 : Nat)).length ≤ i := by
        simp; omega
      rw [getD_append_of_ge _ _ _ _ hge,
        getD_replicate_of_lt _ _ _ _ (by simp at hge ⊢; omega)]
      simp [hle]

theorem getD_zeros_then (t : List Nat) (a j : Nat) :
    (List.replicate a 0 ++ t).getD j 0 = if j < a then 0 else t.getD (j - a) 0 := by
  by_cases h : j < a
  · rw [if_pos h, getD_append_of_lt _ _ _ _ (by simpa using h),
      getD_replicate_of_lt _ _ _ _ h]
  · rw [if_neg h, getD_append_of_ge _ _ _ _ (by simpa using Nat.le_of_not_lt h)]
    simp

/-- The pair-case special-tokens mask `[1] ++ 0*a ++ [1] ++ 0*b ++ [1]`
holds 1 exactly at indices `0`, `a+1` and `a+b+2`. -/
theorem mask_pair_getD (a b i : Nat) :
    ((1 :: (List.replicate a 0 ++ 1 :: (List.replicate b 0 ++ [1]))).getD i 0) =
      if i = 0 ∨ i = a + 1 ∨ i = a + b + 2 then 1
      else if i < a + b + 3 then 0 else 0 := by
  cases i with
  | zero => simp
  | succ j =>
      rw [List.getD_cons_succ, getD_zeros_then]
      by_cases hj : j < a
      · rw [if_pos hj]
        have : ¬ (j + 1 = 0 ∨ j + 1 = a + 1 ∨ j + 1 = a + b + 2) := by omega
        simp only [if_neg this]
        split <;> rfl
      · rw [if_neg hj]
        rcases Nat.exists_eq_add_of_le (Nat.le_of_not_lt hj) with ⟨k, hk⟩
        have hsub : j - a = k := by omega
        rw [hsub]
        cases k with
        | zero =>
            have : j + 1 = 0 ∨ j + 1 = a + 1 ∨ j + 1 = a + b + 2 ∨ True := by
              right; right; right; trivial
            have h1 : j + 1 = a + 1 := by omega
            simp [h1]
        | succ k' =>
            rw [List.getD_cons_succ, getD_zeros_then]
            by_cases hk' : k' < b
            · rw [if_pos hk']
              have : ¬ (j + 1 = 0 ∨ j + 1 = a + 1 ∨ j + 1 = a + b + 2) := by omega
              simp only [if_neg this]
              split <;> rfl
            · rw [if_neg hk']
              rcases Nat.exists_eq_add_of_le (Nat.le_of_not_lt hk') with ⟨k2, hk2⟩
              have hsub2 : k' - b = k2 := by omega
              rw [hsub2]
              cases k2 with
              | zero =>
                  have h1 : j + 1 = a + b + 2 := by omega
                  simp [h1]
              | succ k3 =>
                  have : ¬ (j + 1 = 0 ∨ j + 1 = a + 1 ∨ j + 1 = a + b + 2) := by omega
                  simp only [if_neg this, List.getD_cons_succ]
                  simp [List.getD]

/-- The single-case special-tokens mask `[1] ++ 0*a ++ [1]` holds 1
exactly at indices `0` and `a+1`. -/
theorem mask_single_getD (a i : Nat) :
    ((1 :: (List.replicate a 0 ++ [1])).getD i 0) =
      if i = 0 ∨ i = a + 1 then 1 else 0 := by
  cases i with
  | zero => simp
  | succ j =>
      rw [List.getD_cons_succ, getD_zeros_then]
      by_cases hj : j < a
      · have hne : j ≠ a := by omega
        simp [hj, hne]
      · rw [if_neg hj]
        rcases Nat.exists_eq_add_of_le (Nat.le_of_not_lt hj) with ⟨k, hk⟩
        have hsub : j - a = k := by omega
        rw [hsub]
        cases k with
        | zero =>
            have h1 : j + 1 = a + 1 := by omega
            simp [h1]
        | succ k' =>
            have : ¬ (j + 1 = 0 ∨ j + 1 = a + 1) := by omega
            simp only [if_neg this, List.getD_cons_succ]
            simp [List.getD]

theorem mem_mask_single (x a : Nat)
    (hx : x ∈ (1 :: (List.replicate a 0 ++ [1]) : List Nat)) : x = 0 ∨ x = 1 := by
  rcases List.mem_cons.mp hx with h | h
  · right; exact h
  rcases List.mem_append.mp h with h | h
  · left; exact List.eq_of_mem_replicate h
  · right; simpa using h

theorem mem_mask_pair (x a b : Nat)
    (hx : x ∈ (1 :: (List.replicate a 0 ++ 1 :: (List.replicate b 0 ++ [1])) : List Nat)) :
    x = 0 ∨ x = 1 := by
  rcases List.mem_cons.mp hx with h | h
  · right; exact h
  rcases List.mem_append.mp h with h | h
  · left; exact List.eq_of_mem_replicate h
  rcases List.mem_cons.mp h with h | h
  · right; exact h
  rcases List.mem_append.mp h with h | h
  · left; exact List.eq_of_mem_replicate h
  · right; simpa using h

/-- Claim C3: with `already_has_special_tokens` false, the special-tokens
mask is a 0/1 list of the same length as the assembled input whose
1-positions are exactly the template positions: index 0 (holding `cls`),
index `len(A)+1` (holding `sep`) and, for a pair, the final index
(holding `sep`); every position contributed by `A` or `B` is 0. -/
theorem claim_C3 (cls sep : Nat) (A B : List Nat) :
    (∃ m, get_special_tokens_mask cls sep A none false = Except.ok m ∧
      m.all (fun x => x == 0 || x == 1) ∧
      m.length = (build_inputs_with_special_tokens cls sep A none).length ∧
      (List.range m.length).all (fun i =>
        (m.getD i 0 == 1) == (i == 0 || i == A.length + 1)) ∧
      (build_inputs_with_special_tokens cls sep A none).getD 0 0 = cls ∧
      (build_inputs_with_special_tokens cls sep A none).getD (A.length + 1) 0 = sep) ∧
    (∃ m, get_special_tokens_mask cls sep A (some B) false = Except.ok m ∧
      m.all (fun x => x == 0 || x == 1) ∧
      m.length = (build_inputs_with_special_tokens cls sep A (some B)).length ∧
      (List.range m.length).all (fun i =>
        (m.getD i 0 == 1) ==
          (i == 0 || i == A.length + 1 || i == A.length + B.length + 2)) ∧
      (build_inputs_with_special_tokens cls sep A (some B)).getD 0 0 = cls ∧
      (build_inputs_with_special_tokens cls sep A (some B)).getD (A.length + 1) 0 = sep ∧
      (build_inputs_with_special_tokens cls sep A (some B)).getD
        (A.length + B.length + 2) 0 = sep) := by
  have hm1 : ([1] ++ List.replicate A.length 0 ++ [1] : List Nat) =
      1 :: (List.replicate A.length 0 ++ [1]) := by simp
  have hm2 : ([1] ++ List.replicate A.length 0 ++ [1] ++
      List.replicate B.length 0 ++ [1] : List Nat) =
      1 :: (List.replicate A.length 0 ++ 1 ::
        (List.replicate B.length 0 ++ [1])) := by simp
  constructor
  · refine ⟨_, rfl, ?_, ?_, ?_, ?_, ?_⟩
    · rw [hm1, List.all_eq_true]
      intro x hx
      rcases mem_mask_single x A.length hx with h | h <;> simp [h]
    · simp [build_inputs_with_special_tokens]
    · rw [List.all_eq_true]
      intro i hi
      rw [hm1, mask_single_getD]
      by_cases h : i = 0 ∨ i = A.length + 1
      · have hb : (i == 0 || i == A.length + 1) = true := by
          rcases h with h | h <;> simp [h]
        simp [h, hb]
      · have hb : (i == 0 || i == A.length + 1) = false := by
          push_neg at h
          simp [h.1, h.2]
        simp only [if_neg h, hb]
        rfl
    · have hshape : build_inputs_with_special_tokens cls sep A none =
          cls :: (A ++ [sep]) := by simp [build_inputs_with_special_tokens]
      rw [hshape]; rfl
    · have hshape : build_inputs_with_special_tokens cls sep A none =
          cls :: (A ++ [sep]) := by simp [build_inputs_with_special_tokens]
      rw [hshape, List.getD_cons_succ,
        getD_append_of_ge _ _ _ _ (Nat.le_refl _), Nat.sub_self]
      rfl
  · refine ⟨_, rfl, ?_, ?_, ?_, ?_, ?_, ?_⟩
    · rw [hm2, List.all_eq_true]
      intro x hx
      rcases mem_mask_pair x A.length B.length hx with h | h <;> simp [h]
    · simp [build_inputs_with_special_tokens]
    · rw [List.all_eq_true]
      intro i hi
      rw [hm2, mask_pair_getD]
      by_cases h : i = 0 ∨ i = A.length + 1 ∨ i = A.length + B.length + 2
      · have hb : (i == 0 || i == A.length + 1 ||
            i == A.length + B.length + 2) = true := by
          rcases h with h | h | h <;> simp [h]
        simp [h, hb]
      · have hb : (i == 0 || i == A.length + 1 ||
            i == A.length + B.length + 2) = false := by
          push_neg at h
          simp [h.1, h.2.1, h.2.2]
        simp only [if_neg h, hb]
        split <;> rfl
    · have hshape : build_inputs_with_special_tokens cls sep A (some B) =
          cls :: (A ++ sep :: (B ++ [sep])) := by
        simp [build_inputs_with_special_tokens]
      rw [hshape]; rfl
    · have hshape : build_inputs_with_special_tokens cls sep A (some B) =
          cls :: (A ++ sep :: (B ++ [sep])) := by
        simp [build_inputs_with_special_tokens]
      rw [hshape, List.getD_cons_succ,
        getD_append_of_ge _ _ _ _ (Nat.le_refl _), Nat.sub_self]
      rfl
    · have hshape : build_inputs_with_special_tokens cls sep A (some B) =
          cls :: (A ++ sep :: (B ++ [sep])) := by
        simp [build_inputs_with_special_tokens]
      have h1 : A.length + B.length + 2 = (A.length + B.length + 1) + 1 := rfl
      rw [hshape, h1, List.getD_cons_succ,
        getD_append_of_ge _ _ _ _ (by omega)]
      have h2 : A.length + B.length + 1 - A.length = B.length + 1 := by omega
      rw [h2, List.getD_cons_succ, getD_append_of_ge _ _ _ _ (Nat.le_refl _),
        Nat.sub_self]
      rfl

/-- Claim C5: the assembled ids, token-type ids and special-tokens mask
all have the same length, and the assembled offset mapping has that
length too when its inputs match the id lists in length. -/
theorem claim_C5 (cls sep : Nat) (A B : List Nat) (om0 om1 : List (Nat × Nat)) :
    (create_token_type_ids_from_sequences cls sep A none).length =
      (build_inputs_with_special_tokens cls sep A none).length ∧
    (create_token_type_ids_from_sequences cls sep A (some B)).length =
      (build_inputs_with_special_tokens cls sep A (some B)).length ∧
    (∃ m, get_special_tokens_mask cls sep A none false = Except.ok m ∧
      m.length = (build_inputs_with_special_tokens cls sep A none).length) ∧
    (∃ m, get_special_tokens_mask cls sep A (some B) false = Except.ok m ∧
      m.length = (build_inputs_with_special_tokens cls sep A (some B)).length) ∧
    (om0.length = A.length →
      (build_offset_mapping_with_special_tokens om0 none).length =
        (build_inputs_with_special_tokens cls sep A none).length) ∧
    (om0.length = A.length → om1.length = B.length →
      (build_offset_mapping_with_special_tokens om0 (some om1)).length =
        (build_inputs_with_special_tokens cls sep A (some B)).length) := by
  refine ⟨?_, ?_, ⟨_, rfl, ?_⟩, ⟨_, rfl, ?_⟩, ?_, ?_⟩
  · simp [create_token_type_ids_from_sequences, build_inputs_with_special_tokens]
  · simp [create_token_type_ids_from_sequences, build_inputs_with_special_tokens]
    omega
  · simp [build_inputs_with_special_tokens]
  · simp [build_inputs_with_special_tokens]
  · intro h0
    simp [build_offset_mapping_with_special_tokens,
      build_inputs_with_special_tokens, h0]
  · intro h0 h1
    simp [build_offset_mapping_with_special_tokens,
      build_inputs_with_special_tokens, h0, h1]

/-- Witness for claim C5 at concrete offset lists matching `A = [3]`,
`B = [4]`. -/
theorem claim_C5_witness :
    (build_offset_mapping_with_special_tokens [(1, 2)] none).length =
      (build_inputs_with_special_tokens 1 2 [3] none).length ∧
    (build_offset_mapping_with_special_tokens [(1, 2)] (some [(3, 4)])).length =
      (build_inputs_with_special_tokens 1 2 [3] (some [4])).length :=
  ⟨(claim_C5 1 2 [3] [4] [(1, 2)] [(3, 4)]).2.2.2.2.1 rfl,
   (claim_C5 1 2 [3] [4] [(1, 2)] [(3, 4)]).2.2.2.2.2 rfl rfl⟩

theorem getD_mem_of_lt {α : Type} (d : α) :
    ∀ (l : List α) (j : Nat), j < l.length → l.getD j d ∈ l := by
  intro l
  induction l with
  | nil => intro j h; simp at h
  | cons a t ih =>
      intro j h
      cases j with
      | zero => exact List.mem_cons_self a t
      | succ k => exact List.mem_cons_of_mem a (ih k (by simpa using h))

/-- In the single-sequence assembled offset mapping, `(0,0)` occurs
exactly at indices `0` and `len+1` when the user offsets avoid `(0,0)`. -/
theorem offsets_single_is00 (om0 : List (Nat × Nat)) (h : (0, 0) ∉ om0) (i : Nat) :
    decide ((((0, 0) :: (om0 ++ [(0, 0)])) : List (Nat × Nat)).getD i (1, 1) = (0, 0)) =
      if i = 0 ∨ i = om0.length + 1 then true else false := by
  cases i with
  | zero => simp
  | succ j =>
      rw [List.getD_cons_succ]
      by_cases hj : j < om0.length
      · rw [getD_append_of_lt _ _ _ _ hj]
        have hmem := getD_mem_of_lt (1, 1) om0 j hj
        have hne : om0.getD j (1, 1) ≠ (0, 0) := fun he => h (he ▸ hmem)
        have hcond : ¬ (j + 1 = 0 ∨ j + 1 = om0.length + 1) := by omega
        rw [if_neg hcond, decide_eq_false hne]
      · rw [getD_append_of_ge _ _ _ _ (Nat.le_of_not_lt hj)]
        rcases Nat.exists_eq_add_of_le (Nat.le_of_not_lt hj) with ⟨k, hk⟩
        have hsub : j - om0.length = k := by omega
        rw [hsub]
        cases k with
        | zero =>
            have h1 : j + 1 = om0.length + 1 := by omega
            simp [h1]
        | succ k' =>
            have hcond : ¬ (j + 1 = 0 ∨ j + 1 = om0.length + 1) := by omega
            simp [hcond, List.getD]
            omega

/-- In the pair assembled offset mapping, `(0,0)` occurs exactly at
indices `0`, `len0+1` and `len0+len1+2` when the user offsets avoid
`(0,0)`. -/
theorem offsets_pair_is00 (om0 om1 : List (Nat × Nat)) (h0 : (0, 0) ∉ om0)
    (h1 : (0, 0) ∉ om1) (i : Nat) :
    decide ((((0, 0) :: (om0 ++ (0, 0) :: (om1 ++ [(0, 0)]))) : List (Nat × Nat)).getD
        i (1, 1) = (0, 0)) =
      if i = 0 ∨ i = om0.length + 1 ∨ i = om0.length + om1.length + 2 then true
      else false := by
  cases i with
  | zero => simp
  | succ j =>
      rw [List.getD_cons_succ]
      by_cases hj : j < om0.length
      · rw [getD_append_of_lt _ _ _ _ hj]
        have hmem := getD_mem_of_lt (1, 1) om0 j hj
        have hne : om0.getD j (1, 1) ≠ (0, 0) := fun he => h0 (he ▸ hmem)
        have hcond : ¬ (j + 1 = 0 ∨ j + 1 = om0.length + 1 ∨
            j + 1 = om0.length + om1.length + 2) := by omega
        rw [if_neg hcond, decide_eq_false hne]
      · rw [getD_append_of_ge _ _ _ _ (Nat.le_of_not_lt hj)]
        rcases Nat.exists_eq_add_of_le (Nat.le_of_not_lt hj) with ⟨k, hk⟩
        have hsub : j - om0.length = k := by omega
        rw [hsub]
        cases k with
        | zero =>
            have he : j + 1 = om0.length + 1 := by omega
            simp [he]
        | succ k' =>
            rw [List.getD_cons_succ]
            by_cases hk' : k' < om1.length
            · rw [getD_append_of_lt _ _ _ _ hk']
              have hmem := getD_mem_of_lt (1, 1) om1 k' hk'
              have hne : om1.getD k' (1, 1) ≠ (0, 0) := fun he => h1 (he ▸ hmem)
              have hcond : ¬ (j + 1 = 0 ∨ j + 1 = om0.length + 1 ∨
                  j + 1 = om0.length + om1.length + 2) := by omega
              rw [if_neg hcond, decide_eq_false hne]
            · rw [getD_append_of_ge _ _ _ _ (Nat.le_of_not_lt hk')]
              rcases Nat.exists_eq_add_of_le (Nat.le_of_not_lt hk') with ⟨k2, hk2⟩
              have hsub2 : k' - om1.length = k2 := by omega
              rw [hsub2]
              cases k2 with
              | zero =>
                  have he : j + 1 = om0.length + om1.length + 2 := by omega
                  simp [he]
              | succ k3 =>
                  have hcond : ¬ (j + 1 = 0 ∨ j + 1 = om0.length + 1 ∨
                      j + 1 = om0.length + om1.length + 2) := by omega
                  simp [hcond, List.getD]
                  omega

/-- Claim C4: when the user-supplied offsets never equal `(0,0)`, the
assembled offset mapping carries `(0,0)` at exactly the positions the
special-tokens mask (over equal-length id lists) marks with 1. -/
theorem claim_C4 (cls sep : Nat) (om0 om1 : List (Nat × Nat)) (A B : List Nat) :
    ((0, 0) ∉ om0 → om0.length = A.length →
      ∃ m, get_special_tokens_mask cls sep A none false = Except.ok m ∧
        (build_offset_mapping_with_special_tokens om0 none).length = m.length ∧
        (List.range m.length).all (fun i =>
          decide ((build_offset_mapping_with_special_tokens om0 none).getD i (1, 1) =
            (0, 0)) == (m.getD i 0 == 1))) ∧
    ((0, 0) ∉ om0 → (0, 0) ∉ om1 → om0.length = A.length → om1.length = B.length →
      ∃ m, get_special_tokens_mask cls sep A (some B) false = Except.ok m ∧
        (build_offset_mapping_with_special_tokens om0 (some om1)).length = m.length ∧
        (List.range m.length).all (fun i =>
          decide ((build_offset_mapping_with_special_tokens om0 (some om1)).getD i
            (1, 1) = (0, 0)) == (m.getD i 0 == 1))) := by
  constructor
  · intro h0 hl0
    refine ⟨_, rfl, ?_, ?_⟩
    · simp [build_offset_mapping_with_special_tokens, hl0]
    · rw [List.all_eq_true]
      intro i hi
      have hoff : build_offset_mapping_with_special_tokens om0 none =
          (0, 0) :: (om0 ++ [(0, 0)]) := by
        simp [build_offset_mapping_with_special_tokens]
      have hmask : ([1] ++ List.replicate A.length 0 ++ [1] : List Nat) =
          1 :: (List.replicate A.length 0 ++ [1]) := by simp
      rw [hoff, hmask, offsets_single_is00 om0 h0 i, mask_single_getD]
      rw [hl0]
      by_cases h : i = 0 ∨ i = A.length + 1
      · simp [h]
      · simp [h]
  · intro h0 h1 hl0 hl1
    refine ⟨_, rfl, ?_, ?_⟩
    · simp [build_offset_mapping_with_special_tokens, hl0, hl1]
    · rw [List.all_eq_true]
      intro i hi
      have hoff : build_offset_mapping_with_special_tokens om0 (some om1) =
          (0, 0) :: (om0 ++ (0, 0) :: (om1 ++ [(0, 0)])) := by
        simp [build_offset_mapping_with_special_tokens]
      have hmask : ([1] ++ List.replicate A.length 0 ++ [1] ++
          List.replicate B.length 0 ++ [1] : List Nat) =
          1 :: (List.replicate A.length 0 ++ 1 ::
            (List.replicate B.length 0 ++ [1])) := by simp
      rw [hoff, hmask, offsets_pair_is00 om0 om1 h0 h1 i, mask_pair_getD]
      rw [hl0, hl1]
      by_cases h : i = 0 ∨ i = A.length + 1 ∨ i = A.length + B.length + 2
      · simp [h]
      · simp only [if_neg h]
        split <;> rfl

/-- Witness for claim C4 at `om0 = [(0,2)]`, `om1 = [(3,7)]`,
`A = [5]`, `B = [6]`. -/
theorem claim_C4_witness :
    (∃ m, get_special_tokens_mask 1 2 [5] none false = Except.ok m ∧
      (build_offset_mapping_with_special_tokens [(0, 2)] none).length = m.length ∧
      (List.range m.length).all (fun i =>
        decide ((build_offset_mapping_with_special_tokens [(0, 2)] none).getD i (1, 1) =
          (0, 0)) == (m.getD i 0 == 1))) ∧
    (∃ m, get_special_tokens_mask 1 2 [5] (some [6]) false = Except.ok m ∧
      (build_offset_mapping_with_special_tokens [(0, 2)] (some [(3, 7)])).length =
        m.length ∧
      (List.range m.length).all (fun i =>
        decide ((build_offset_mapping_with_special_tokens [(0, 2)] (some [(3, 7)])).getD
          i (1, 1) = (0, 0)) == (m.getD i 0 == 1))) :=
  ⟨(claim_C4 1 2 [(0, 2)] [(3, 7)] [5] [6]).1 (by decide) rfl,
   (claim_C4 1 2 [(0, 2)] [(3, 7)] [5] [6]).2 (by decide) (by decide) rfl rfl⟩

theorem getD_map_of_lt (f : Nat → Nat) :
    ∀ (l : List Nat) (i : Nat), i < l.length → ∀ (d d' : Nat),
      (l.map f).getD i d = f (l.getD i d') := by
  intro l
  induction l with
  | nil => intro i h; simp at h
  | cons a t ih =>
      intro i h d d'
      cases i with
      | zero => rfl
      | succ j => exact ih j (by simpa using h) d d'

/-- Claim C10: with `already_has_special_tokens` true,
`get_special_tokens_mask` errors exactly when a second sequence is
supplied; without one it marks position `i` with 1 exactly when the id
there equals the sep id or the cls id (so user tokens whose id collides
with cls or sep are marked too). -/
theorem claim_C10 (cls sep : Nat) (ids0 : List Nat) :
    (∀ ids1 : List Nat, ∃ e,
      get_special_tokens_mask cls sep ids0 (some ids1) true = Except.error e) ∧
    (∃ m, get_special_tokens_mask cls sep ids0 none true = Except.ok m ∧
      m.length = ids0.length ∧
      (List.range ids0.length).all (fun i =>
        (m.getD i 0 == 1) ==
          (decide (ids0.getD i 0 = sep) || decide (ids0.getD i 0 = cls)))) := by
  constructor
  · intro ids1
    exact ⟨_, rfl⟩
  · refine ⟨_, rfl, by simp, ?_⟩
    rw [List.all_eq_true]
    intro i hi
    rw [List.mem_range] at hi
    rw [getD_map_of_lt _ ids0 i hi _ 0]
    set x := ids0.getD i 0
    by_cases h : x = sep ∨ x = cls
    · have hr : (decide (x = sep) || decide (x = cls)) = true := by
        rcases h with h | h <;> simp [h]
      rw [if_pos h, hr]
      rfl
    · push_neg at h
      have hr : (decide (x = sep) || decide (x = cls)) = false := by
        simp [h.1, h.2]
      rw [if_neg (by push_neg; exact h), hr]
      rfl

/-- Claim C9: when the path names no existing vocabulary file,
construction fails with an error; no tokenizer state is produced, and the
outcome does not depend on any file contents (nothing is loaded). -/
theorem claim_C9 (fs : FS) (p : String) (dlc dbt : Bool)
    (h : fs.isfile p = false) :
    (∃ e, ElectraTokenizer.init fs p dlc dbt = Except.error e) ∧
    (∀ t, ElectraTokenizer.init fs p dlc dbt ≠ Except.ok t) ∧
    (∀ g : String → List String,
      ElectraTokenizer.init ⟨fs.isfile, g⟩ p dlc dbt =
        ElectraTokenizer.init fs p dlc dbt) := by
  have hinit : ElectraTokenizer.init fs p dlc dbt =
      Except.error
        ("Can't find a vocabulary file at path '" ++ p ++
          "'. To load the vocabulary from a pretrained model please use `tokenizer = ElectraTokenizer.from_pretrained(PRETRAINED_MODEL_NAME)`") := by
    simp [ElectraTokenizer.init, h]
  refine ⟨⟨_, hinit⟩, ?_, ?_⟩
  · intro t hcontra
    rw [hinit] at hcontra
    simp at hcontra
  · intro g
    simp [ElectraTokenizer.init, h]

/-- Witness for claim C9 on a filesystem with no files. -/
theorem claim_C9_witness :
    (∃ e, ElectraTokenizer.init ⟨fun _ => false, fun _ => []⟩ "vocab.txt" true true =
      Except.error e) ∧
    (∀ t, ElectraTokenizer.init ⟨fun _ => false, fun _ => []⟩ "vocab.txt" true true ≠
      Except.ok t) ∧
    (∀ g : String → List String,
      ElectraTokenizer.init ⟨fun _ => false, g⟩ "vocab.txt" true true =
        ElectraTokenizer.init ⟨fun _ => false, fun _ => []⟩ "vocab.txt" true true) :=
  claim_C9 ⟨fun _ => false, fun _ => []⟩ "vocab.txt" true true rfl

/-- Witness for claim C2 at `cls = 5`, `sep = 6`, `A = [9]`, `B = [8]`. -/
theorem claim_C2_witness :
    (build_inputs_with_special_tokens 5 6 [9] (some [8])).findIdx
        (fun x => x == 6) = 2 ∧
      (List.range (create_token_type_ids_from_sequences 5 6 [9] (some [8])).length).all
        (fun i =>
          ((create_token_type_ids_from_sequences 5 6 [9] (some [8])).getD i 0 == 0) ==
            decide (i ≤ 2)) :=
  (claim_C2 5 6 [9] [8]).2.2 (by decide) (by decide)

/-- Claim C7: on the fixture vocabulary and merges, BPE tokenization of
"lower newer" with the leading-space marker yields
`["Ġlow", "er", "Ġ", "n", "e", "w", "er"]`, and converting those tokens
plus the unknown token to ids yields `[14, 15, 10, 9, 3, 2, 15, 19]`. -/
theorem claim_C7 :
    gpt_tokenize gptFixtureMerges
        ['l', 'o', 'w', 'e', 'r', ' ', 'n', 'e', 'w', 'e', 'r'] =
      [['Ġ', 'l', 'o', 'w'], ['e', 'r'], ['Ġ'], ['n'], ['e'], ['w'], ['e', 'r']] ∧
    ((gpt_tokenize gptFixtureMerges
        ['l', 'o', 'w', 'e', 'r', ' ', 'n', 'e', 'w', 'e', 'r']) ++
      [['<', 'u', 'n', 'k', '>']]).map (convert_tokens_to_ids gptFixtureVocab 19) =
      [14, 15, 10, 9, 3, 2, 15, 19] := by
  constructor
  · rfl
  · rfl

/-- Counterexample to claim C8: in the batch `[[5,7],[6]]` with pad id 7,
the example `[5,7]` attains the batch maximum, yet the claim's assertion
that it contains no pad token id is false — its own ids contain 7. -/
theorem claim_C8_counterexample :
    [5, 7].length = batchMaxLen [[5, 7], [6]] ∧
    ¬ (7 ∉ ((padLongest 7 [[5, 7], [6]]).getD 0 ([], [])).1) := by
  constructor
  · rfl
  · intro hcontra
    exact hcontra (by decide)

/-- Claim C8 (amended): a short input padded under `max_length = maxLen`
yields ids of length exactly `maxLen` containing the pad id, with a 0 in
the attention mask; under the `longest` policy, the example attaining the
batch maximum receives no padding — its ids are unchanged and its
attention mask has no 0 — and hence contains no pad id provided its
unpadded ids contain none. -/
theorem claim_C8_amended (padId maxLen : Nat) (ids : List Nat)
    (batch : List (List Nat)) :
    (ids.length < maxLen →
      ((padToLength padId maxLen ids).1.length = maxLen ∧
        padId ∈ (padToLength padId maxLen ids).1 ∧
        (0 : Nat) ∈ (padToLength padId maxLen ids).2)) ∧
    (ids ∈ batch → ids.length = batchMaxLen batch →
      ((padToLength padId (batchMaxLen batch) ids).1 = ids ∧
        (0 : Nat) ∉ (padToLength padId (batchMaxLen batch) ids).2 ∧
        (padId ∉ ids → padId ∉ (padToLength padId (batchMaxLen batch) ids).1))) := by
  constructor
  · intro h
    have hk : maxLen - ids.length ≠ 0 := by omega
    refine ⟨?_, ?_, ?_⟩
    · simp [padToLength]
      omega
    · exact List.mem_append.mpr (Or.inr (List.mem_replicate.mpr ⟨hk, rfl⟩))
    · exact List.mem_append.mpr (Or.inr (List.mem_replicate.mpr ⟨hk, rfl⟩))
  · intro hmem hlen
    have h0 : batchMaxLen batch - ids.length = 0 := by omega
    refine ⟨?_, ?_, ?_⟩
    · simp [padToLength, h0]
    · simp [padToLength, h0, List.mem_replicate]
    · intro hpad hcontra
      simp [padToLength, h0] at hcontra
      exact hpad hcontra

/-- Witness for the amended claim C8 on the batch `[[1,2],[4,5,6]]` with
pad id 3 and `max_length` 30. -/
theorem claim_C8_amended_witness :
    ((padToLength 3 30 [4, 5, 6]).1.length = 30 ∧
      3 ∈ (padToLength 3 30 [4, 5, 6]).1 ∧
      (0 : Nat) ∈ (padToLength 3 30 [4, 5, 6]).2) ∧
    ((padToLength 3 (batchMaxLen [[1, 2], [4, 5, 6]]) [4, 5, 6]).1 = [4, 5, 6] ∧
      (0 : Nat) ∉ (padToLength 3 (batchMaxLen [[1, 2], [4, 5, 6]]) [4, 5, 6]).2 ∧
      (3 ∉ [4, 5, 6] →
        3 ∉ (padToLength 3 (batchMaxLen [[1, 2], [4, 5, 6]]) [4, 5, 6]).1)) :=
  ⟨(claim_C8_amended 3 30 [4, 5, 6] [[1, 2], [4, 5, 6]]).1 (by decide),
   (claim_C8_amended 3 30 [4, 5, 6] [[1, 2], [4, 5, 6]]).2 (by decide) rfl⟩

/-- Counterexample to claim C6: with vocabulary {"a", ",", "b"} every
character of "a,b" is in-vocabulary and no unknown token is produced, yet
decoding the encoding of "a,b" yields "a , b", which differs from the
whitespace normalization of "a,b" — punctuation splitting inserts spaces
that the space-join cannot undo. -/
theorem claim_C6_counterexample :
    (¬ ['[', 'U', 'N', 'K', ']'] ∈ electra_tokenize isCJKChar isPunc
        (fun w => w) [['a'], [','], ['b']]
        ['[', 'U', 'N', 'K', ']'] 100 true ['a', ',', 'b']) ∧
    convert_tokens_to_string (electra_tokenize isCJKChar isPunc
        (fun w => w) [['a'], [','], ['b']]
        ['[', 'U', 'N', 'K', ']'] 100 true ['a', ',', 'b']) =
      ['a', ' ', ',', ' ', 'b'] ∧
    normalizeWS ['a', ',', 'b'] = ['a', ',', 'b'] ∧
    convert_tokens_to_string (electra_tokenize isCJKChar isPunc
        (fun w => w) [['a'], [','], ['b']]
        ['[', 'U', 'N', 'K', ']'] 100 true ['a', ',', 'b']) ≠
      normalizeWS ['a', ',', 'b'] := by
  refine ⟨by decide, by decide, by decide, by decide⟩

/-- Every word produced by `wsSplitAux` is nonempty and consists of
non-whitespace characters drawn from the input or the accumulator. -/
theorem wsSplitAux_sound :
    ∀ (s acc : List Char), (∀ c ∈ acc, c.isWhitespace = false) →
      ∀ w ∈ wsSplitAux s acc,
        w ≠ [] ∧ ∀ c ∈ w, c.isWhitespace = false ∧ (c ∈ s ∨ c ∈ acc) := by
  intro s
  induction s with
  | nil =>
      intro acc hacc w hw
      simp only [wsSplitAux] at hw
      by_cases h : acc.isEmpty
      · rw [if_pos h] at hw
        simp at hw
      · rw [if_neg h] at hw
        have hw' : w = acc.reverse := by simpa using hw
        subst hw'
        refine ⟨?_, ?_⟩
        · intro hcontra
          have hnil : acc = [] := by simpa using congrArg List.reverse hcontra
          exact h (by simp [hnil])
        · intro c hc
          rw [List.mem_reverse] at hc
          exact ⟨hacc c hc, Or.inr hc⟩
  | cons c cs ih =>
      intro acc hacc w hw
      simp only [wsSplitAux] at hw
      by_cases hws : c.isWhitespace
      · rw [if_pos hws] at hw
        by_cases hem : acc.isEmpty
        · rw [if_pos hem] at hw
          have h := ih [] (by simp) w hw
          refine ⟨h.1, fun ch hch => ⟨(h.2 ch hch).1, ?_⟩⟩
          rcases (h.2 ch hch).2 with h' | h'
          · exact Or.inl (List.mem_cons_of_mem c h')
          · simp at h'
        · rw [if_neg hem] at hw
          rcases List.mem_cons.mp hw with hw' | hw'
          · subst hw'
            refine ⟨?_, ?_⟩
            · intro hcontra
              have hnil : acc = [] := by simpa using congrArg List.reverse hcontra
              exact hem (by simp [hnil])
            · intro ch hch
              rw [List.mem_reverse] at hch
              exact ⟨hacc ch hch, Or.inr hch⟩
          · have h := ih [] (by simp) w hw'
            refine ⟨h.1, fun ch hch => ⟨(h.2 ch hch).1, ?_⟩⟩
            rcases (h.2 ch hch).2 with h' | h'
            · exact Or.inl (List.mem_cons_of_mem c h')
            · simp at h'
      · rw [if_neg hws] at hw
        have hwsf : c.isWhitespace = false := by simpa using hws
        have hacc' : ∀ ch ∈ c :: acc, ch.isWhitespace = false := by
          intro ch hch
          rcases List.mem_cons.mp hch with h' | h'
          · subst h'; exact hwsf
          · exact hacc ch h'
        have h := ih (c :: acc) hacc' w hw
        refine ⟨h.1, fun ch hch => ⟨(h.2 ch hch).1, ?_⟩⟩
        rcases (h.2 ch hch).2 with h' | h'
        · exact Or.inl (List.mem_cons_of_mem c h')
        · rcases List.mem_cons.mp h' with h'' | h''
          · exact Or.inl (by rw [h'']; exact List.mem_cons_self c cs)
          · exact Or.inr h''

/-- Words of `wsSplit` are nonempty, whitespace-free and drawn from the
text. -/
theorem wsSplit_sound (text : List Char) :
    ∀ w ∈ wsSplit text,
      w ≠ [] ∧ ∀ c ∈ w, c.isWhitespace = false ∧ c ∈ text := by
  intro w hw
  have h := wsSplitAux_sound text [] (by simp) w hw
  refine ⟨h.1, fun c hc => ⟨(h.2 c hc).1, ?_⟩⟩
  rcases (h.2 c hc).2 with h' | h'
  · exact h'
  · simp at h'

/-- A punctuation-free nonempty word passes through `splitOnPunc`
unchanged. -/
theorem splitOnPunc_no_punc (isPuncP : Char → Bool) :
    ∀ (w : List Char), (∀ c ∈ w, isPuncP c = false) → w ≠ [] →
      splitOnPunc isPuncP w = [w] := by
  intro w
  induction w with
  | nil => intro _ h; exact absurd rfl h
  | cons c w' ih =>
      intro hp _
      cases w' with
      | nil => rfl
      | cons d cs =>
          have hc : isPuncP c = false := hp c (by simp)
          have hd : isPuncP d = false := hp d (by simp)
          have hrec : splitOnPunc isPuncP (d :: cs) = [d :: cs] :=
            ih (fun ch hch => hp ch (List.mem_cons_of_mem c hch)) (by simp)
          simp [splitOnPunc, hc, hd, hrec]

theorem map_toLower_fixed :
    ∀ (w : List Char), (∀ c ∈ w, Char.toLower c = c) →
      w.map Char.toLower = w := by
  intro w
  induction w with
  | nil => intro _; rfl
  | cons c w' ih =>
      intro h
      simp only [List.map_cons]
      rw [h c (by simp), ih (fun ch hch => h ch (List.mem_cons_of_mem c hch))]

theorem flatten_map_singleton {α : Type} (l : List α) :
    (l.map (fun x => [x])).flatten = l := by
  induction l with
  | nil => rfl
  | cons a t ih => simp [ih]

/-- CJK isolation is the identity on text with no CJK characters. -/
theorem cjkPad_id (isCJKp : Char → Bool) :
    ∀ (text : List Char), (∀ c ∈ text, isCJKp c = false) →
      cjkPad isCJKp text = text := by
  intro text
  induction text with
  | nil => intro _; rfl
  | cons c cs ih =>
      intro h
      have hc : isCJKp c = false := h c (by simp)
      have ih' := ih (fun d hd => h d (List.mem_cons_of_mem c hd))
      rw [cjkPad, hc]
      simp [ih']

/-- On CJK-free, punctuation-free, already-lowercase, accent-stable text
the basic segmenter is exactly whitespace splitting. -/
theorem basic_tokenize_clean (isCJKp isPuncP : Char → Bool)
    (stripAccents : List Char → List Char) (text : List Char)
    (h : ∀ c ∈ text, isPuncP c = false ∧ isCJKp c = false ∧
      Char.toLower c = c)
    (hacc : ∀ w ∈ wsSplit text, stripAccents w = w) :
    basic_tokenize isCJKp isPuncP stripAccents true text = wsSplit text := by
  unfold basic_tokenize
  rw [cjkPad_id isCJKp text (fun c hc => (h c hc).2.1)]
  have hmap : (wsSplit text).map
      (fun w => splitOnPunc isPuncP
        (if true then stripAccents (w.map Char.toLower) else w)) =
      (wsSplit text).map (fun w => [w]) := by
    apply List.map_congr_left
    intro w hw
    have hs := wsSplit_sound text w hw
    have hlow : w.map Char.toLower = w :=
      map_toLower_fixed w (fun c hc => (h c ((hs.2 c hc).2)).2.2)
    show splitOnPunc isPuncP (stripAccents (w.map Char.toLower)) = [w]
    rw [hlow, hacc w hw]
    exact splitOnPunc_no_punc isPuncP w
      (fun c hc => (h c ((hs.2 c hc).2)).1) hs.1
  rw [hmap, flatten_map_singleton]

theorem wpTry_pos (vocab : List (List Char)) (b : Bool) (rest : List Char) :
    ∀ (k n : Nat), wpTry vocab b rest k = some n → 1 ≤ n := by
  intro k
  induction k with
  | zero => intro n h; simp [wpTry] at h
  | succ m ih =>
      intro n h
      rw [wpTry] at h
      by_cases hc : vocab.contains (wpMark b (rest.take (m + 1)))
      · rw [if_pos hc] at h
        have : m + 1 = n := Option.some.inj h
        omega
      · rw [if_neg hc] at h
        exact ih n h

theorem stripMark_wpMark (b : Bool) (p : List Char) :
    stripMark b (wpMark b p) = p := by
  cases b <;> rfl

theorem wpGo_join (vocab : List (List Char)) :
    ∀ (f : Nat) (b : Bool) (rest : List Char) (ts : List (List Char)),
      wpGo vocab f b rest = some ts → joinWP b ts = rest := by
  intro f
  induction f with
  | zero =>
      intro b rest ts h
      cases rest with
      | nil =>
          have : ts = [] := (Option.some.inj h).symm
          subst this; rfl
      | cons c cs => simp [wpGo] at h
  | succ m ih =>
      intro b rest ts h
      cases rest with
      | nil =>
          have : ts = [] := (Option.some.inj h).symm
          subst this; rfl
      | cons c cs =>
          rw [wpGo] at h
          cases htry : wpTry vocab b (c :: cs) (c :: cs).length with
          | none => rw [htry] at h; simp at h
          | some n =>
              rw [htry] at h
              dsimp only at h
              rcases Option.map_eq_some'.mp h with ⟨ts', hgo, hts⟩
              subst hts
              simp only [joinWP]
              rw [stripMark_wpMark, ih false _ ts' hgo]
              exact List.take_append_drop n (c :: cs)

theorem wpGo_shape_false (vocab : List (List Char)) :
    ∀ (f : Nat) (rest : List Char) (ts : List (List Char)),
      wpGo vocab f false rest = some ts → pieceCharsOK rest →
      ∀ t ∈ ts, contOK t := by
  intro f
  induction f with
  | zero =>
      intro rest ts h hok t ht
      cases rest with
      | nil =>
          have : ts = [] := (Option.some.inj h).symm
          subst this; simp at ht
      | cons c cs => simp [wpGo] at h
  | succ m ih =>
      intro rest ts h hok t ht
      cases rest with
      | nil =>
          have : ts = [] := (Option.some.inj h).symm
          subst this; simp at ht
      | cons c cs =>
          rw [wpGo] at h
          cases htry : wpTry vocab false (c :: cs) (c :: cs).length with
          | none => rw [htry] at h; simp at h
          | some n =>
              rw [htry] at h
              dsimp only at h
              rcases Option.map_eq_some'.mp h with ⟨ts', hgo, hts⟩
              subst hts
              rcases List.mem_cons.mp ht with ht' | ht'
              · subst ht'
                refine ⟨(c :: cs).take n, rfl, ?_, ?_⟩
                · have hn := wpTry_pos vocab false (c :: cs) _ n htry
                  cases n with
                  | zero => omega
                  | succ k => simp [List.take_cons]
                · intro ch hch
                  exact hok ch (List.take_subset n (c :: cs) hch)
              · exact ih _ ts' hgo
                  (fun ch hch => hok ch (List.drop_subset n (c :: cs) hch)) t ht'

theorem wpGo_shape_true (vocab : List (List Char)) (f : Nat) (rest : List Char)
    (ts : List (List Char)) (h : wpGo vocab f true rest = some ts)
    (hok : pieceCharsOK rest) (hne : rest ≠ []) : goodWord ts := by
  cases rest with
  | nil => exact absurd rfl hne
  | cons c cs =>
      cases f with
      | zero => simp [wpGo] at h
      | succ m =>
          rw [wpGo] at h
          cases htry : wpTry vocab true (c :: cs) (c :: cs).length with
          | none => rw [htry] at h; simp at h
          | some n =>
              rw [htry] at h
              dsimp only at h
              rcases Option.map_eq_some'.mp h with ⟨ts', hgo, hts⟩
              subst hts
              refine ⟨(c :: cs).take n, ts', rfl, ?_, ?_, ?_⟩
              · have hn := wpTry_pos vocab true (c :: cs) _ n htry
                cases n with
                | zero => omega
                | succ k => simp [List.take_cons]
              · intro ch hch
                exact hok ch (List.take_subset n (c :: cs) hch)
              · exact wpGo_shape_false vocab m _ ts' hgo
                  (fun ch hch => hok ch (List.drop_subset n (c :: cs) hch))

theorem pieceChar_ne_space {c : Char} (h : c.isWhitespace = false) : c ≠ ' ' := by
  intro he
  subst he
  exact absurd h (by decide)

theorem pieceChar_ne_hash {c : Char} (h : isPunc c = false) : c ≠ '#' := by
  intro he
  subst he
  exact absurd h (by decide)

/-- `removeSpHH` passes over a space-free prefix untouched. -/
theorem removeSpHH_append :
    ∀ (p : List Char), (∀ c ∈ p, c ≠ ' ') → ∀ (s : List Char),
      removeSpHH (p ++ s) = p ++ removeSpHH s := by
  intro p
  induction p with
  | nil => intro _ s; rfl
  | cons c p' ih =>
      intro h s
      cases p' with
      | nil =>
          cases s with
          | nil => rfl
          | cons d s' =>
              cases s' with
              | nil => rfl
              | cons e s'' =>
                  have hc : c ≠ ' ' := h c (by simp)
                  show removeSpHH (c :: d :: e :: s'') = [c] ++ removeSpHH (d :: e :: s'')
                  rw [removeSpHH, if_neg (fun hcontra => hc hcontra.1)]
                  rfl
      | cons d p'' =>
          cases hps : p'' ++ s with
          | nil =>
              have hp'' : p'' = [] := (List.append_eq_nil.mp hps).1
              have hs : s = [] := (List.append_eq_nil.mp hps).2
              subst hp''; subst hs
              rfl
          | cons e rest =>
              have hc : c ≠ ' ' := h c (by simp)
              have hgoal : (c :: d :: p'') ++ s = c :: d :: e :: rest := by
                simp [hps]
              rw [hgoal, removeSpHH, if_neg (fun hcontra => hc hcontra.1)]
              have h2 : d :: e :: rest = (d :: p'') ++ s := by simp [hps]
              rw [h2, ih (fun ch hch => h ch (List.mem_cons_of_mem c hch)) s]
              rfl

/-- A separator space followed by a non-`#` character is kept. -/
theorem removeSpHH_sp (c : Char) (X : List Char) (hc : c ≠ '#') :
    removeSpHH (' ' :: c :: X) = ' ' :: removeSpHH (c :: X) := by
  cases X with
  | nil => rfl
  | cons e X' =>
      rw [removeSpHH, if_neg (fun hcontra => hc hcontra.2.1)]

/-- A separator space followed by a continuation marker is removed
together with the marker. -/
theorem removeSpHH_cont :
    ∀ (cs : List (List Char)), (∀ t ∈ cs, contOK t) → ∀ (s : List Char),
      removeSpHH ((cs.map (fun t => ' ' :: t)).flatten ++ s) =
        joinWP false cs ++ removeSpHH s := by
  intro cs
  induction cs with
  | nil => intro _ s; rfl
  | cons t cs' ih =>
      intro h s
      rcases h t (by simp) with ⟨p, hp, hpne, hpok⟩
      subst hp
      have hfe : (((('#' :: '#' :: p) :: cs').map (fun t => ' ' :: t)).flatten ++ s) =
          ' ' :: '#' :: '#' :: (p ++ ((cs'.map (fun t => ' ' :: t)).flatten ++ s)) := by
        simp
      rw [hfe, removeSpHH, if_pos ⟨rfl, rfl, rfl⟩]
      rw [removeSpHH_append p (fun ch hch => pieceChar_ne_space (hpok ch hch).2) _]
      rw [ih (fun u hu => h u (List.mem_cons_of_mem _ hu)) s]
      simp [joinWP, stripMark]

/-- Processing a whole space-joined token stream (every token preceded by
a separator space) strips exactly the continuation markers: the result is
the space-joined list of reassembled words. -/
theorem removeSpHH_stream :
    ∀ (L : List (List (List Char))), (∀ ts ∈ L, goodWord ts) →
      removeSpHH ((L.flatten.map (fun t => ' ' :: t)).flatten) =
        ((L.map (joinWP true)).map (fun w => ' ' :: w)).flatten := by
  intro L
  induction L with
  | nil => intro _; rfl
  | cons ts L' ih =>
      intro h
      rcases h ts (by simp) with ⟨t0, ts', hts, ht0ne, ht0ok, hcont⟩
      subst hts
      obtain ⟨c, t0', hc⟩ : ∃ c t0', t0 = c :: t0' := by
        cases t0 with
        | nil => exact absurd rfl ht0ne
        | cons c t0' => exact ⟨c, t0', rfl⟩
      subst hc
      have harg : ((((c :: t0') :: ts') :: L').flatten.map
            (fun t => ' ' :: t)).flatten =
          ' ' :: c :: (t0' ++ ((ts'.map (fun t => ' ' :: t)).flatten ++
            (L'.flatten.map (fun t => ' ' :: t)).flatten)) := by
        simp
      rw [harg]
      have hcne : c ≠ '#' := pieceChar_ne_hash (ht0ok c (by simp)).1
      rw [removeSpHH_sp c _ hcne]
      have hassoc : c :: (t0' ++ ((ts'.map (fun t => ' ' :: t)).flatten ++
            (L'.flatten.map (fun t => ' ' :: t)).flatten)) =
          (c :: t0') ++ ((ts'.map (fun t => ' ' :: t)).flatten ++
            (L'.flatten.map (fun t => ' ' :: t)).flatten) := by simp
      rw [hassoc,
        removeSpHH_append (c :: t0')
          (fun ch hch => pieceChar_ne_space (ht0ok ch hch).2) _,
        removeSpHH_cont ts' hcont _,
        ih (fun u hu => h u (List.mem_cons_of_mem _ hu))]
      simp [joinWP, stripMark]

/-- `removeSpHH` over the space-join of a stream of well-formed word
pieces yields the space-join of the reassembled words. -/
theorem removeSpHH_joinSp (L : List (List (List Char)))
    (h : ∀ ts ∈ L, goodWord ts) :
    removeSpHH (joinSp L.flatten) = joinSp (L.map (joinWP true)) := by
  cases L with
  | nil => rfl
  | cons ts L' =>
      rcases h ts (by simp) with ⟨t0, ts', hts, ht0ne, ht0ok, hcont⟩
      subst hts
      have hshape : joinSp ((t0 :: ts') :: L').flatten =
          t0 ++ ((ts'.map (fun t => ' ' :: t)).flatten ++
            (L'.flatten.map (fun t => ' ' :: t)).flatten) := by
        simp [joinSp]
      rw [hshape,
        removeSpHH_append t0
          (fun ch hch => pieceChar_ne_space (ht0ok ch hch).2) _,
        removeSpHH_cont ts' hcont _,
        removeSpHH_stream L' (fun u hu => h u (List.mem_cons_of_mem _ hu))]
      simp [joinSp, joinWP, stripMark]

theorem dropWhile_head_false {p : Char → Bool} :
    ∀ (l : List Char), (∀ c, l.head? = some c → p c = false) →
      l.dropWhile p = l := by
  intro l h
  cases l with
  | nil => rfl
  | cons c cs =>
      rw [List.dropWhile_cons, h c rfl]
      simp

/-- Stripping surrounding whitespace is the identity on a string whose
first and last characters are not whitespace. -/
theorem stripWS_eq_self (s : List Char)
    (h1 : ∀ c, s.head? = some c → c.isWhitespace = false)
    (h2 : ∀ c, s.getLast? = some c → c.isWhitespace = false) :
    stripWS s = s := by
  unfold stripWS
  rw [dropWhile_head_false s h1,
    dropWhile_head_false s.reverse
      (fun c hc => h2 c (by rwa [List.head?_reverse] at hc)),
    List.reverse_reverse]

theorem getLast_some_mem :
    ∀ (l : List Char) (c : Char), l.getLast? = some c → c ∈ l := by
  intro l
  induction l with
  | nil => intro c h; simp at h
  | cons a t ih =>
      intro c h
      cases t with
      | nil =>
          have : a = c := Option.some.inj h
          subst this
          exact List.mem_cons_self a []
      | cons b t' =>
          rw [List.getLast?_cons_cons] at h
          exact List.mem_cons_of_mem a (ih c h)

theorem joinSp_head_mem (w : List Char) (ws : List (List Char)) (c : Char)
    (h : (joinSp (w :: ws)).head? = some c) (hne : w ≠ []) : c ∈ w := by
  cases w with
  | nil => exact absurd rfl hne
  | cons d w' =>
      have hd : (joinSp ((d :: w') :: ws)).head? = some d := by simp [joinSp]
      rw [hd] at h
      have : d = c := Option.some.inj h
      subst this
      exact List.mem_cons_self d w'

theorem joinSp_getLast_mem :
    ∀ (ws : List (List Char)), (∀ w ∈ ws, w ≠ []) → ∀ c,
      (joinSp ws).getLast? = some c → ∃ w, w ∈ ws ∧ c ∈ w := by
  intro ws
  induction ws with
  | nil => intro _ c h; simp [joinSp] at h
  | cons w ws' ih =>
      intro hne c h
      cases ws' with
      | nil =>
          have hw : joinSp [w] = w := by simp [joinSp]
          rw [hw] at h
          exact ⟨w, by simp, getLast_some_mem w c h⟩
      | cons w2 ws'' =>
          have hw2ne : w2 ≠ [] := hne w2 (by simp)
          have hjne : joinSp (w2 :: ws'') ≠ [] := by
            cases w2 with
            | nil => exact absurd rfl hw2ne
            | cons e w2' => simp [joinSp]
          have hshape : joinSp (w :: w2 :: ws'') =
              w ++ (' ' :: joinSp (w2 :: ws'')) := by
            simp [joinSp]
          rw [hshape] at h
          obtain ⟨d, hd⟩ : ∃ d, (joinSp (w2 :: ws'')).getLast? = some d := by
            cases hJl : (joinSp (w2 :: ws'')).getLast? with
            | none => exact absurd (List.getLast?_eq_none_iff.mp hJl) hjne
            | some d => exact ⟨d, rfl⟩
          have hlast : (w ++ ' ' :: joinSp (w2 :: ws'')).getLast? = some d := by
            rw [List.getLast?_append]
            have hsp : (' ' :: joinSp (w2 :: ws'')).getLast? = some d := by
              rw [show (' ' :: joinSp (w2 :: ws'')) =
                  [' '] ++ joinSp (w2 :: ws'') from rfl,
                List.getLast?_append, hd]
              rfl
            rw [hsp]
            rfl
          rw [hlast] at h
          have hdc : d = c := Option.some.inj h
          subst hdc
          rcases ih (fun u hu => hne u (List.mem_cons_of_mem w hu)) d hd with
            ⟨u, hu, hcu⟩
          exact ⟨u, List.mem_cons_of_mem w hu, hcu⟩

/-- Claim C6 (amended): for every instantiation of the segmenter's CJK
classifier, punctuation classifier (containing at least the ASCII symbol
ranges, as spec 4.2 requires) and accent stripper — in particular the
real Unicode ones — and every input text none of whose characters are
punctuation or CJK under those classifiers or changed by lowercasing,
whose whitespace-separated words are fixed by accent stripping and each
tokenize by the greedy WordPiece matcher without unknown-token
substitution within the length cap, decoding the encoding recovers the
text after whitespace normalization. -/
theorem claim_C6_amended (isCJKp isPuncP : Char → Bool)
    (stripAccents : List Char → List Char) (vocab : List (List Char))
    (unk : List Char) (maxChars : Nat) (text : List Char)
    (hP : ∀ c : Char, isPunc c = true → isPuncP c = true)
    (hchars : ∀ c ∈ text, isPuncP c = false ∧ isCJKp c = false ∧
      Char.toLower c = c)
    (hacc : ∀ w ∈ wsSplit text, stripAccents w = w)
    (hwp : ∀ w ∈ wsSplit text, w.length ≤ maxChars ∧
      ∃ ts, wpGo vocab w.length true w = some ts) :
    convert_tokens_to_string
        (electra_tokenize isCJKp isPuncP stripAccents vocab unk maxChars
          true text) =
      normalizeWS text := by
  have hws := wsSplit_sound text
  have hbt : basic_tokenize isCJKp isPuncP stripAccents true text =
      wsSplit text :=
    basic_tokenize_clean isCJKp isPuncP stripAccents text hchars hacc
  have hencode : electra_tokenize isCJKp isPuncP stripAccents vocab unk
      maxChars true text =
      ((wsSplit text).map (wordpiece_tokenize vocab unk maxChars)).flatten := by
    unfold electra_tokenize
    rw [hbt]
  have hwt : ∀ w ∈ wsSplit text, ∃ ts,
      wpGo vocab w.length true w = some ts ∧
      wordpiece_tokenize vocab unk maxChars w = ts := by
    intro w hw
    rcases hwp w hw with ⟨hlen, ts, hgo⟩
    refine ⟨ts, hgo, ?_⟩
    unfold wordpiece_tokenize
    rw [if_neg (by omega), hgo]
  have hchar_w : ∀ w ∈ wsSplit text, pieceCharsOK w := by
    intro w hw c hc
    have htext := (hws w hw).2 c hc
    refine ⟨?_, htext.1⟩
    cases hic : isPunc c with
    | false => rfl
    | true =>
        have h1 := (hchars c htext.2).1
        rw [hP c hic] at h1
        exact absurd h1 (by simp)
  have hgoodL : ∀ ts ∈ (wsSplit text).map (wordpiece_tokenize vocab unk maxChars),
      goodWord ts := by
    intro ts hts
    rcases List.mem_map.mp hts with ⟨w, hw, hts'⟩
    rcases hwt w hw with ⟨ts', hgo, hwteq⟩
    rw [← hts', hwteq]
    exact wpGo_shape_true vocab w.length w ts' hgo (hchar_w w hw) (hws w hw).1
  have hjoinL : ((wsSplit text).map (wordpiece_tokenize vocab unk maxChars)).map
      (joinWP true) = wsSplit text := by
    rw [List.map_map]
    have hcongr : ∀ w ∈ wsSplit text,
        (joinWP true ∘ wordpiece_tokenize vocab unk maxChars) w = w := by
      intro w hw
      rcases hwt w hw with ⟨ts', hgo, hwteq⟩
      show joinWP true (wordpiece_tokenize vocab unk maxChars w) = w
      rw [hwteq]
      exact wpGo_join vocab w.length true w ts' hgo
    rw [List.map_congr_left hcongr]
    exact List.map_id' (wsSplit text)
  unfold convert_tokens_to_string normalizeWS
  rw [hencode, removeSpHH_joinSp _ hgoodL, hjoinL]
  apply stripWS_eq_self
  · intro c hc
    cases hsplit : wsSplit text with
    | nil => rw [hsplit] at hc; simp [joinSp] at hc
    | cons w ws' =>
        rw [hsplit] at hc
        have hwmem : w ∈ wsSplit text := by rw [hsplit]; simp
        have hcw : c ∈ w := joinSp_head_mem w ws' c hc (hws w hwmem).1
        exact ((hws w hwmem).2 c hcw).1
  · intro c hc
    rcases joinSp_getLast_mem (wsSplit text) (fun w hw => (hws w hw).1) c hc with
      ⟨w, hw, hcw⟩
    exact ((hws w hw).2 c hcw).1

/-- Witness for the amended claim C6: the concrete CJK ranges, the ASCII
punctuation classifier, the identity accent stripper, vocabulary
{"a", "##b"}, text "ab". -/
theorem claim_C6_amended_witness :
    convert_tokens_to_string
        (electra_tokenize isCJKChar isPunc (fun w => w)
          [['a'], ['#', '#', 'b']] ['[', 'U', 'N', 'K', ']'] 100
          true ['a', 'b']) =
      normalizeWS ['a', 'b'] :=
  claim_C6_amended isCJKChar isPunc (fun w => w) [['a'], ['#', '#', 'b']]
    ['[', 'U', 'N', 'K', ']'] 100 ['a', 'b']
    (fun _ h => h)
    (by decide)
    (fun _ _ => rfl)
    (by
      intro w hw
      have hweq : w = ['a', 'b'] := by
        have hsp : wsSplit ['a', 'b'] = [['a', 'b']] := by decide
        rw [hsp] at hw
        simpa using hw
      subst hweq
      exact ⟨by decide, ⟨[['a'], ['#', '#', 'b']], by decide⟩⟩)
